import Mathlib

/-!
# The strider irc client : message parser, message helpers, callback registry, built-in handlers

A shallow embedding of `client.go`, `message.go` and `irc.go`.

A Go `string` is modelled as the list of its characters (`Str`).  The parser only
looks for the one-byte ASCII separators `' '`, `':'`, `'!'`, `'@'`, `'#'`, `'&'`, `'+'`,
which never occur inside a multi-byte UTF-8 sequence, so the byte offsets of the source
correspond to positions in the character list.  A run-time fault (index or slice bounds
out of range) is modelled by `none`.
-/

namespace Irc

/-- A Go string, as the list of its characters. -/
abbrev Str := List Char

/-! ## Go standard library functions used by the source -/

/-- Loop of `strings.Index` for a non-empty separator: the first position, counted
from `i`, at which `sep` starts, or `-1`. -/
def IndexAux (sep : Str) : Str → Nat → Int
  | [], _ => -1
  | c :: cs, i => if sep.isPrefixOf (c :: cs) then (i : Int) else IndexAux sep cs (i + 1)

/-- Go `strings.Index(s, sep)` for a non-empty `sep`. -/
def Index (s sep : Str) : Int := IndexAux sep s 0

/-- Go slice expression `s[lo:hi]` on a string: faults unless `0 ≤ lo ≤ hi ≤ len(s)`. -/
def slice (s : Str) (lo hi : Int) : Option Str :=
  if 0 ≤ lo ∧ lo ≤ hi ∧ hi ≤ (s.length : Int) then
    some ((s.drop lo.toNat).take (hi.toNat - lo.toNat))
  else none

/-- Go slice expression `s[lo:]` on a string. -/
def sliceFrom (s : Str) (lo : Int) : Option Str := slice s lo s.length

/-- Loop of Go `strings.genSplit` for a non-empty separator: cut at the first
occurrence of `sep` at most `k` times, the rest of the string being the last piece. -/
def genSplit (sep : Str) : Nat → Str → List Str
  | 0, s => [s]
  | k + 1, s =>
    let m := Index s sep
    if m < 0 then [s]
    else s.take m.toNat :: genSplit sep k (s.drop (m.toNat + sep.length))

/-- Go `strings.SplitN(s, sep, n)` for a non-empty `sep` and `n > 0`: at most `n`
pieces, that is at most `n - 1` cuts. -/
def SplitN (s sep : Str) (n : Nat) : List Str := genSplit sep (n - 1) s

/-- Go `strings.Split(s, sep)` for a non-empty `sep`: cut at every occurrence.  There
are at most `len(s)` occurrences, so `len(s)` cuts reach all of them. -/
def Split (s sep : Str) : List Str := genSplit sep s.length s

/-- Go `strings.ToUpper(s)`: every character mapped by `unicode.ToUpper`, which is the
parameter `upper` (a table of the Go library). -/
def ToUpper (upper : Char → Char) (s : Str) : Str := s.map upper

/-- Loop of Go `strings.FieldsFunc`: `cur` is the field being read (empty when no
field is open), a character satisfying `f` closes the open field. -/
def FieldsFuncAux (f : Char → Bool) : Str → Str → List Str
  | [], cur => if cur = [] then [] else [cur]
  | c :: cs, cur =>
    if f c then
      (if cur = [] then FieldsFuncAux f cs [] else cur :: FieldsFuncAux f cs [])
    else FieldsFuncAux f cs (cur ++ [c])

/-- Go `strings.FieldsFunc(s, f)`: the maximal non-empty runs of characters of `s`
not satisfying `f`. -/
def FieldsFunc (s : Str) (f : Char → Bool) : List Str := FieldsFuncAux f s []

/-- Go `fmt.Sprintf` restricted to the verb `%s` with string operands, which is all
the source uses on the paths embedded here. -/
def Sprintf : Str → List Str → Str
  | '%' :: 's' :: fs, a :: as => a ++ Sprintf fs as
  | '%' :: 's' :: fs, [] => "%!s(MISSING)".toList ++ Sprintf fs []
  | c :: fs, as => c :: Sprintf fs as
  | [], _ => []

/-! ## irc.go : constants -/

def CMD_PRIVMSG : Str := "PRIVMSG".toList
def ERR_NICKINUSE : Str := "433".toList

/-! ## message.go -/

/-- The `Message` struct of `message.go`; every field has the Go zero value unless
set. -/
structure Message where
  Prefix : Str := []
  Command : Str := []
  Parameters : List Str := []
  Raw : Str := []
  Nick : Str := []
  User : Str := []
  Host : Str := []
  Trail : Str := []
  self : Str := []
  deriving DecidableEq

/-- Method `IsChannelMsg`: `m.Parameters[0][0]` faults when there is no first
parameter or when it is the empty string. -/
def IsChannelMsg (m : Message) : Option Bool :=
  if m.Command = CMD_PRIVMSG then
    match m.Parameters[0]? with
    | none => none
    | some p =>
      match p[0]? with
      | none => none
      | some b =>
        if b = '#' ∨ b = '&' ∨ b = '!' ∨ b = '+' then some true else some false
  else some false

/-- Method `PrivmsgRespondTo`: the pair `(target, err)`, `err` being `none` for Go
`nil` and `some text` for `errors.New(text)`. -/
def PrivmsgRespondTo (m : Message) : Option (Str × Option Str) :=
  match IsChannelMsg m with
  | none => none
  | some true =>
    match m.Parameters[0]? with
    | none => none
    | some p => some (p, none)
  | some false =>
    if m.Command = CMD_PRIVMSG then some (m.Nick, none)
    else some ([], some "Command not PRIVMSG".toList)

/-! ## client.go -/

/-- The part of the `Client` struct the embedded methods touch.  The channels `in`
and `out` are modelled by the list of the strings sent on them so far, oldest first;
`H` is the type of the registered callbacks. -/
structure Client (H : Type) where
  inCh : List Str
  outCh : List Str
  callbacks : Str → Option (List H)
  server : Str
  nick : Str
  ssl : Bool

variable {H : Type}

/-- Function `NewClient` of `irc.go`: no channel has carried anything yet and the
callback map is empty. -/
def NewClient (server nick : Str) (ssl : Bool) : Client H :=
  { server := server, nick := nick, ssl := ssl, callbacks := fun _ => none,
    inCh := [], outCh := [] }

/-- Method `parseMessage`, statement by statement; `nick` is the receiver's `c.nick`.
`raw[0]`, `raw[prefixIndex+1:]`, `params[0]`, `raw[1:prefixIndex]` and `cmd[0]` are the
places where the Go code can fault. -/
def parseMessage (upper : Char → Char) (nick : Str) (raw : Str) : Option Message := do
  let result : Message := { Raw := raw, self := nick }
  let hasPrefix : Bool := (← raw[0]?) == ':'
  let prefixIndex : Int := if hasPrefix then Index raw " ".toList else -1
  let params := SplitN (← sliceFrom raw (prefixIndex + 1)) " :".toList 2
  let cmd := Split (← params[0]?) " ".toList
  let result ← if hasPrefix then (slice raw 1 prefixIndex).map (fun p => { result with Prefix := p })
               else some result
  let result := { result with Command := ToUpper upper (← cmd[0]?) }
  let result := { result with Parameters := cmd.drop 1 }
  let result := if params.length > 1 then { result with Trail := params.getD 1 [] } else result
  let split := FieldsFunc result.Prefix (fun r => r == '!' || r == '@')
  let result := if split.length = 3 then
      { result with Nick := split.getD 0 [], User := split.getD 1 [], Host := split.getD 2 [] }
    else result
  return result

/-- Method `Writeln`: the formatted line followed by CR LF is sent on `in`. -/
def Writeln (c : Client H) (format : Str) (vars : List Str) : Client H :=
  { c with inCh := c.inCh ++ [Sprintf format vars ++ "\r\n".toList] }

/-- Method `DebugWrite`: the formatted text is sent on `out`. -/
def DebugWrite (c : Client H) (format : Str) (vars : List Str) : Client H :=
  { c with outCh := c.outCh ++ [Sprintf format vars] }

/-- Method `ChangeNick`. -/
def ChangeNick (c : Client H) (nick : Str) : Client H :=
  Writeln { c with nick := nick } "NICK %s".toList [nick]

/-- Method `GetNick`. -/
def GetNick (c : Client H) : Str := c.nick

/-- Method `HandleCommand`. -/
def HandleCommand (c : Client H) (cmd : Str) (callback : H) : Client H :=
  match c.callbacks cmd with
  | some l => { c with callbacks := fun k => if k = cmd then some (l ++ [callback]) else c.callbacks k }
  | none => { c with callbacks := fun k => if k = cmd then some [callback] else c.callbacks k }

/-- The callback `registerCallbacks` installs for `PING`. -/
def pingCallback (c : Client H) (msg : Message) : Client H :=
  Writeln c "PONG %s".toList [msg.Trail]

/-- The callback `registerCallbacks` installs for `ERR_NICKINUSE`. -/
def nickInUseCallback (c : Client H) (_msg : Message) : Client H :=
  let newnick := c.nick ++ "-".toList
  let c1 := DebugWrite c "Nick %s is in use, changing to %s.".toList [c.nick, newnick]
  ChangeNick c1 newnick

/-- Method `registerCallbacks`: the two closures it builds are the parameters `ping`
and `nickInUse`; their bodies are `pingCallback` and `nickInUseCallback`. -/
def registerCallbacks (c : Client H) (ping nickInUse : H) : Client H :=
  HandleCommand (HandleCommand c "PING".toList ping) ERR_NICKINUSE nickInUse

/-! ## Vocabulary of the statements -/

/-- The middle parameters of a line as they are written on the wire: each one preceded
by a single space. -/
def spaced : List Str → Str
  | [] => []
  | a :: as => ' ' :: (a ++ spaced as)

/-- A token that can stand as a middle parameter: non-empty, free of spaces and not
starting with a colon. -/
abbrev IsMiddle (t : Str) : Prop := t ≠ [] ∧ ' ' ∉ t ∧ t.head? ≠ some ':'

/-- The string `s` consists of exactly three fields `a`, `b`, `c` in this order: each
field is non-empty and free of separators (characters satisfying `f`), the fields are
separated by non-empty runs of separators, and runs of separators (`d0`, `d3`, possibly
empty) may come before the first field and after the last. -/
def ThreeFields (f : Char → Bool) (s a b c : Str) : Prop :=
  ∃ d0 d1 d2 d3 : Str,
    s = d0 ++ (a ++ (d1 ++ (b ++ (d2 ++ (c ++ d3))))) ∧
    (∀ x ∈ d0, f x = true) ∧ (∀ x ∈ d1, f x = true) ∧ (∀ x ∈ d2, f x = true) ∧
    (∀ x ∈ d3, f x = true) ∧ d1 ≠ [] ∧ d2 ≠ [] ∧
    a ≠ [] ∧ b ≠ [] ∧ c ≠ [] ∧
    (∀ x ∈ a, f x = false) ∧ (∀ x ∈ b, f x = false) ∧ (∀ x ∈ c, f x = false)

/-- The separators of the `nick!user@host` decomposition in `parseMessage`. -/
def isBangAt (r : Char) : Bool := r == '!' || r == '@'

/-- The shape `nick!user@host`: three non-empty parts free of `!` and `@`, joined by
one `!` and one `@`. -/
def NickUserHost (s nick user host : Str) : Prop :=
  s = nick ++ ('!' :: (user ++ ('@' :: host))) ∧
  nick ≠ [] ∧ user ≠ [] ∧ host ≠ [] ∧
  (∀ x ∈ nick, isBangAt x = false) ∧ (∀ x ∈ user, isBangAt x = false) ∧
  (∀ x ∈ host, isBangAt x = false)

/-- A sequence of `HandleCommand` calls, oldest first. -/
def registerAll (c : Client H) (regs : List (Str × H)) : Client H :=
  regs.foldl (fun c r => HandleCommand c r.1 r.2) c

/-- The callbacks a sequence of registrations names for the key `k`, oldest first. -/
def registeredUnder (regs : List (Str × H)) (k : Str) : List H :=
  (regs.filter (fun r => decide (r.1 = k))).map (fun r => r.2)

/-- The nick `n` followed by `k` dashes. -/
def dashed (n : Str) (k : Nat) : Str := n ++ List.replicate k '-'

/-- A string is closed at its start when it is empty or starts with a separator. -/
def StartsClosed (f : Char → Bool) (s : Str) : Prop := ∀ y ∈ s.head?, f y = true

/-- The message `parseMessage` returns on the line `:a@b!c X`. -/
def msgSwapped : Message :=
  { Raw := ":a@b!c X".toList, Prefix := "a@b!c".toList, Command := "X".toList,
    Nick := "a".toList, User := "b".toList, Host := "c".toList }

/-- A client named `bob` on which nothing has been sent or registered yet. -/
def bobClient : Client Nat := NewClient "irc.example.org:6667".toList "bob".toList false

/-- Three registrations: one for `JOIN`, then two for the key `*`, with callbacks
named by numbers. -/
def sampleRegs : List (Str × Nat) :=
  [("JOIN".toList, 1), ("*".toList, 2), ("*".toList, 3)]

/-! ## Facts about the library functions -/

theorem IndexAux_space_skip (a rest : Str) (i : Nat) (ha : ' ' ∉ a) :
    IndexAux [' '] (a ++ rest) i = IndexAux [' '] rest (i + a.length) := by
  induction a generalizing i with
  | nil => simp
  | cons c cs ih =>
    have hc : ¬ (' ' = c) := fun h => ha (Or.inl h |> List.mem_cons.mpr)
    have hcs : ' ' ∉ cs := fun h => ha (by simp [h])
    have e : i + (c :: cs).length = i + 1 + cs.length := by simp; omega
    rw [e, ← ih (i + 1) hcs]
    simp [IndexAux, hc]

theorem IndexAux_space_hit (rest : Str) (i : Nat) :
    IndexAux [' '] (' ' :: rest) i = i := by
  simp [IndexAux]

theorem Index_space (a rest : Str) (ha : ' ' ∉ a) :
    Index (a ++ ' ' :: rest) [' '] = a.length := by
  simp [Index, IndexAux_space_skip a _ 0 ha, IndexAux_space_hit]

theorem Index_space_none (a : Str) (ha : ' ' ∉ a) : Index a [' '] = -1 := by
  have := IndexAux_space_skip a [] 0 ha
  simpa [Index, IndexAux] using this

theorem IndexAux_sc_skip (a rest : Str) (i : Nat) (ha : ' ' ∉ a) :
    IndexAux [' ', ':'] (a ++ rest) i = IndexAux [' ', ':'] rest (i + a.length) := by
  induction a generalizing i with
  | nil => simp
  | cons c cs ih =>
    have hc : ¬ (' ' = c) := fun h => ha (Or.inl h |> List.mem_cons.mpr)
    have hcs : ' ' ∉ cs := fun h => ha (by simp [h])
    have e : i + (c :: cs).length = i + 1 + cs.length := by simp; omega
    rw [e, ← ih (i + 1) hcs]
    simp [IndexAux, hc]

theorem IndexAux_sc_hit (rest : Str) (i : Nat) :
    IndexAux [' ', ':'] (' ' :: ':' :: rest) i = i := by
  simp [IndexAux]

theorem IndexAux_sc_space (d : Char) (rest : Str) (i : Nat) (hd : d ≠ ':') :
    IndexAux [' ', ':'] (' ' :: d :: rest) i = IndexAux [' ', ':'] (d :: rest) (i + 1) := by
  have hd2 : ¬ (':' = d) := fun h => hd h.symm
  simp [IndexAux, hd2]

theorem IndexAux_sc_nil (i : Nat) : IndexAux [' ', ':'] [] i = -1 := by
  simp [IndexAux]

/-- Cutting at a known first occurrence. -/
theorem genSplit_cut (sep a b : Str) (k : Nat) (h : Index (a ++ (sep ++ b)) sep = a.length) :
    genSplit sep (k + 1) (a ++ (sep ++ b)) = a :: genSplit sep k b := by
  have h0 : ¬ ((a.length : Int) < 0) := by omega
  simp only [genSplit, h, h0, if_false, Int.toNat_ofNat]
  rw [List.take_left, ← List.append_assoc, ← List.length_append, List.drop_left]

theorem genSplit_last (sep s : Str) (k : Nat) (h : Index s sep = -1) :
    genSplit sep k s = [s] := by
  cases k <;> simp [genSplit, h]

theorem genSplit_head (sep s : Str) (k : Nat) : ∃ p ps, genSplit sep k s = p :: ps := by
  cases k with
  | zero => exact ⟨s, [], rfl⟩
  | succ k =>
    by_cases h : Index s sep < 0
    · exact ⟨s, [], by simp [genSplit, h]⟩
    · exact ⟨_, _, by simp only [genSplit, h, if_false]; rfl⟩

theorem genSplit_space_tokens (ts : List Str) (k : Nat) (t0 : Str) (hk : ts.length ≤ k)
    (h0 : ' ' ∉ t0) (hts : ∀ t ∈ ts, ' ' ∉ t) :
    genSplit [' '] k (t0 ++ spaced ts) = t0 :: ts := by
  induction ts generalizing k t0 with
  | nil => simpa [spaced] using genSplit_last [' '] t0 k (Index_space_none t0 h0)
  | cons a as ih =>
    obtain ⟨k, rfl⟩ : ∃ j, k = j + 1 := ⟨k - 1, by simp at hk; omega⟩
    have hi : Index (t0 ++ ([' '] ++ (a ++ spaced as))) [' '] = t0.length := Index_space t0 _ h0
    have hcut := genSplit_cut [' '] t0 (a ++ spaced as) k hi
    have hrec := ih k a (by simp at hk; omega) (hts a (by simp))
      (fun t ht => hts t (by simp [ht]))
    simpa [spaced, hrec] using hcut

theorem spaced_length (ts : List Str) : ts.length ≤ (spaced ts).length := by
  induction ts with
  | nil => simp
  | cons a as ih => simp [spaced]; omega

theorem Split_space_tokens (t0 : Str) (ts : List Str) (h0 : ' ' ∉ t0)
    (hts : ∀ t ∈ ts, ' ' ∉ t) : Split (t0 ++ spaced ts) [' '] = t0 :: ts := by
  apply genSplit_space_tokens ts _ t0 _ h0 hts
  have := spaced_length ts
  simp; omega

theorem IndexAux_sc_spaced (ts : List Str) (rest : Str) (i : Nat) (hts : ∀ t ∈ ts, IsMiddle t) :
    IndexAux [' ', ':'] (spaced ts ++ rest) i
      = IndexAux [' ', ':'] rest (i + (spaced ts).length) := by
  induction ts generalizing i with
  | nil => simp [spaced]
  | cons a as ih =>
    obtain ⟨hne, hsp, hcol⟩ := hts a (by simp)
    obtain ⟨d, a1, rfl⟩ : ∃ d a1, a = d :: a1 := by
      cases a with
      | nil => exact absurd rfl hne
      | cons d a1 => exact ⟨d, a1, rfl⟩
    have hd : d ≠ ':' := fun h => hcol (by simp [h])
    have e1 : spaced ((d :: a1) :: as) ++ rest = ' ' :: d :: (a1 ++ (spaced as ++ rest)) := by
      simp [spaced]
    have e2 : d :: (a1 ++ (spaced as ++ rest)) = (d :: a1) ++ (spaced as ++ rest) := by simp
    rw [e1, IndexAux_sc_space _ _ _ hd, e2, IndexAux_sc_skip _ _ _ hsp,
      ih _ (fun t ht => hts t (by simp [ht]))]
    congr 1
    simp [spaced]; omega

theorem Index_sc_tokens (t0 : Str) (ts : List Str) (h0 : ' ' ∉ t0)
    (hts : ∀ t ∈ ts, IsMiddle t) : Index (t0 ++ spaced ts) [' ', ':'] = -1 := by
  have h := IndexAux_sc_spaced ts [] (0 + t0.length) hts
  rw [Index, IndexAux_sc_skip _ _ _ h0]
  simpa [IndexAux_sc_nil] using h

theorem Index_sc_trailing (t0 : Str) (ts : List Str) (trailing : Str) (h0 : ' ' ∉ t0)
    (hts : ∀ t ∈ ts, IsMiddle t) :
    Index ((t0 ++ spaced ts) ++ ([' ', ':'] ++ trailing)) [' ', ':']
      = ((t0 ++ spaced ts).length : Int) := by
  rw [Index, List.append_assoc, IndexAux_sc_skip _ _ _ h0, IndexAux_sc_spaced _ _ _ hts]
  simp [IndexAux_sc_hit]

/-! ## Unfolding `parseMessage` -/

theorem slice_all (s : Str) : sliceFrom s 0 = some s := by
  simp [sliceFrom, slice]

theorem parseMessage_no_colon (upper : Char → Char) (nick : Str) (c : Char) (cs : Str)
    (p0 c0 : Str) (ps args : List Str) (hc : c ≠ ':')
    (hp : SplitN (c :: cs) [' ', ':'] 2 = p0 :: ps) (hcmd : Split p0 [' '] = c0 :: args) :
    parseMessage upper nick (c :: cs) =
      some { Raw := c :: cs, self := nick, Command := ToUpper upper c0, Parameters := args,
             Trail := if ps = [] then [] else ps.headD [] } := by
  have hsl : sliceFrom (c :: cs) 0 = some (c :: cs) := slice_all _
  cases ps with
  | nil => simp [parseMessage, hc, hsl, hp, hcmd, FieldsFunc, FieldsFuncAux]
  | cons q qs => simp [parseMessage, hc, hsl, hp, hcmd, FieldsFunc, FieldsFuncAux]

theorem slice_after_space (pfx rest : Str) :
    sliceFrom (':' :: (pfx ++ ' ' :: rest)) (((':' :: pfx).length : Int) + 1) = some rest := by
  have h1 : ((':' :: pfx).length : Int) + 1 = ((pfx.length + 2 : Nat) : Int) := by
    simp; omega
  have h2 : ((':' :: (pfx ++ ' ' :: rest)).length : Int)
      = ((pfx.length + 2 + rest.length : Nat) : Int) := by
    simp; omega
  have h3 : List.drop (pfx.length + 2) (':' :: (pfx ++ ' ' :: rest)) = rest := by
    have : ':' :: (pfx ++ ' ' :: rest) = (':' :: (pfx ++ [' '])) ++ rest := by simp
    rw [this]
    have hl : (':' :: (pfx ++ [' '])).length = pfx.length + 2 := by simp
    rw [← hl, List.drop_left]
  unfold sliceFrom slice
  rw [h1, h2]
  simp only [Int.toNat_ofNat, h3]
  have : (0 : Int) ≤ ((pfx.length + 2 : Nat) : Int)
      ∧ ((pfx.length + 2 : Nat) : Int) ≤ ((pfx.length + 2 + rest.length : Nat) : Int)
      ∧ ((pfx.length + 2 + rest.length : Nat) : Int) ≤ ((pfx.length + 2 + rest.length : Nat) : Int) := by
    omega
  rw [if_pos this]
  simp

theorem slice_before_space (pfx rest : Str) :
    slice (':' :: (pfx ++ ' ' :: rest)) 1 ((':' :: pfx).length : Int) = some pfx := by
  have h1 : (0 : Int) ≤ 1 ∧ (1 : Int) ≤ ((':' :: pfx).length : Int)
      ∧ ((':' :: pfx).length : Int) ≤ ((':' :: (pfx ++ ' ' :: rest)).length : Int) := by
    simp; omega
  unfold slice
  rw [if_pos h1]
  simp

theorem parseMessage_colon (upper : Char → Char) (nick pfx rest p0 c0 : Str)
    (ps args : List Str) (hpfx : ' ' ∉ pfx)
    (hp : SplitN rest [' ', ':'] 2 = p0 :: ps) (hcmd : Split p0 [' '] = c0 :: args) :
    parseMessage upper nick (':' :: (pfx ++ ' ' :: rest)) =
      some (if (FieldsFunc pfx (fun r => r == '!' || r == '@')).length = 3 then
          { Raw := ':' :: (pfx ++ ' ' :: rest), self := nick, Prefix := pfx,
            Command := ToUpper upper c0, Parameters := args,
            Trail := if ps = [] then [] else ps.headD [],
            Nick := (FieldsFunc pfx (fun r => r == '!' || r == '@')).getD 0 [],
            User := (FieldsFunc pfx (fun r => r == '!' || r == '@')).getD 1 [],
            Host := (FieldsFunc pfx (fun r => r == '!' || r == '@')).getD 2 [] }
        else
          { Raw := ':' :: (pfx ++ ' ' :: rest), self := nick, Prefix := pfx,
            Command := ToUpper upper c0, Parameters := args,
            Trail := if ps = [] then [] else ps.headD [] }) := by
  have hidx : Index (':' :: (pfx ++ ' ' :: rest)) [' '] = ((':' :: pfx).length : Int) := by
    have := Index_space (':' :: pfx) rest (by simp [hpfx])
    simpa using this
  have h1 := slice_after_space pfx rest
  have h2 := slice_before_space pfx rest
  simp only [List.length_cons, Nat.cast_succ] at hidx h1 h2
  unfold parseMessage
  cases ps with
  | nil => simp [hidx, h1, h2, hp, hcmd]
  | cons q qs => simp [hidx, h1, h2, hp, hcmd]

theorem SplitN_head (s sep : Str) (n : Nat) : ∃ p ps, SplitN s sep n = p :: ps :=
  genSplit_head sep s (n - 1)

theorem Split_head (s sep : Str) : ∃ p ps, Split s sep = p :: ps :=
  genSplit_head sep s s.length

theorem parseMessage_colon_no_space (upper : Char → Char) (nick body : Str)
    (hbody : ' ' ∉ body) : parseMessage upper nick (':' :: body) = none := by
  have hidx : Index (':' :: body) [' '] = -1 := Index_space_none _ (by simp [hbody])
  have hsl : sliceFrom (':' :: body) 0 = some (':' :: body) := slice_all _
  obtain ⟨p0, ps, hp⟩ := SplitN_head (':' :: body) [' ', ':'] 2
  obtain ⟨c0, args, hcmd⟩ := Split_head p0 [' ']
  simp [parseMessage, hidx, hsl, hp, hcmd, slice]

/-! ## Facts about `FieldsFunc` -/

theorem FieldsFuncAux_field (f : Char → Bool) (fld rest cur : Str)
    (hf : ∀ x ∈ fld, f x = false) :
    FieldsFuncAux f (fld ++ rest) cur = FieldsFuncAux f rest (cur ++ fld) := by
  induction fld generalizing cur with
  | nil => simp
  | cons c cs ih =>
    have hc : f c = false := hf c (by simp)
    have := ih (cur ++ [c]) (fun x hx => hf x (by simp [hx]))
    simp [FieldsFuncAux, hc, this]

theorem FieldsFuncAux_delims (f : Char → Bool) (ds rest : Str) (hd : ∀ x ∈ ds, f x = true) :
    FieldsFuncAux f (ds ++ rest) [] = FieldsFuncAux f rest [] := by
  induction ds with
  | nil => simp
  | cons c cs ih =>
    have hc : f c = true := hd c (by simp)
    have := ih (fun x hx => hd x (by simp [hx]))
    simp [FieldsFuncAux, hc, this]

theorem FieldsFunc_field (f : Char → Bool) (fld rest : Str) (hne : fld ≠ [])
    (hf : ∀ x ∈ fld, f x = false) (hrest : StartsClosed f rest) :
    FieldsFunc (fld ++ rest) f = fld :: FieldsFunc rest f := by
  unfold FieldsFunc
  rw [FieldsFuncAux_field f fld rest [] hf]
  cases rest with
  | nil => simp [FieldsFuncAux, hne]
  | cons y r =>
    have hy : f y = true := hrest y (by simp)
    simp [FieldsFuncAux, hy, hne]

theorem FieldsFunc_delims (f : Char → Bool) (ds rest : Str) (hd : ∀ x ∈ ds, f x = true) :
    FieldsFunc (ds ++ rest) f = FieldsFunc rest f :=
  FieldsFuncAux_delims f ds rest hd

theorem FieldsFunc_nil (f : Char → Bool) : FieldsFunc [] f = [] := by
  simp [FieldsFunc, FieldsFuncAux]

theorem StartsClosed_of_all (f : Char → Bool) (s : Str) (h : ∀ x ∈ s, f x = true) :
    StartsClosed f s := by
  intro y hy
  cases s with
  | nil => simp at hy
  | cons z r =>
    simp at hy
    subst hy
    exact h _ (by simp)

theorem StartsClosed_append (f : Char → Bool) (ds rest : Str) (hne : ds ≠ [])
    (h : ∀ x ∈ ds, f x = true) : StartsClosed f (ds ++ rest) := by
  intro y hy
  cases ds with
  | nil => exact absurd rfl hne
  | cons z r =>
    simp at hy
    subst hy
    exact h _ (by simp)

/-- Either a string holds only separators and has no field, or it is a run of
separators, then a first field, then a rest that is closed at its start. -/
theorem FieldsFunc_cases (f : Char → Bool) (s : Str) :
    ((∀ x ∈ s, f x = true) ∧ FieldsFunc s f = []) ∨
    (∃ ds fld rest, s = ds ++ (fld ++ rest) ∧ (∀ x ∈ ds, f x = true) ∧ fld ≠ [] ∧
      (∀ x ∈ fld, f x = false) ∧ StartsClosed f rest ∧
      FieldsFunc s f = fld :: FieldsFunc rest f) := by
  induction s with
  | nil => exact Or.inl ⟨by simp, FieldsFunc_nil f⟩
  | cons c cs ih =>
    by_cases hc : f c = true
    · have hdrop : FieldsFunc (c :: cs) f = FieldsFunc cs f :=
        FieldsFunc_delims f [c] cs (by simp [hc])
      rcases ih with ⟨hall, hnil⟩ | ⟨ds, fld, rest, hs, hds, hne, hfld, hrest, hF⟩
      · exact Or.inl ⟨by simpa [hc] using hall, by rw [hdrop, hnil]⟩
      · refine Or.inr ⟨c :: ds, fld, rest, by simp [hs], ?_, hne, hfld, hrest, by rw [hdrop, hF]⟩
        intro x hx
        rcases List.mem_cons.mp hx with rfl | hx
        · exact hc
        · exact hds x hx
    · have hc0 : f c = false := by simpa using hc
      right
      rcases ih with ⟨hall, _⟩ | ⟨ds, fld, rest, hs, hds, hne, hfld, hrest, _⟩
      · refine ⟨[], [c], cs, by simp, by simp, by simp, by simp [hc0],
          StartsClosed_of_all f cs hall, ?_⟩
        exact FieldsFunc_field f [c] cs (by simp) (by simp [hc0]) (StartsClosed_of_all f cs hall)
      · cases ds with
        | nil =>
          have hfld2 : ∀ x ∈ c :: fld, f x = false := by
            intro x hx
            rcases List.mem_cons.mp hx with rfl | hx
            · exact hc0
            · exact hfld x hx
          refine ⟨[], c :: fld, rest, by simp [hs], by simp, by simp, hfld2, hrest, ?_⟩
          have := FieldsFunc_field f (c :: fld) rest (by simp) hfld2 hrest
          simpa [hs] using this
        | cons d ds1 =>
          have hcl : StartsClosed f cs := by
            rw [hs]
            exact StartsClosed_append f (d :: ds1) _ (by simp) hds
          refine ⟨[], [c], cs, by simp, by simp, by simp, by simp [hc0], hcl, ?_⟩
          exact FieldsFunc_field f [c] cs (by simp) (by simp [hc0]) hcl

theorem head_not_closed (f : Char → Bool) (fld rest : Str) (hne : fld ≠ [])
    (hfld : ∀ x ∈ fld, f x = false) : ¬ StartsClosed f (fld ++ rest) := by
  intro h
  cases fld with
  | nil => exact hne rfl
  | cons z r =>
    have h1 : f z = true := h z (by simp)
    have h2 : f z = false := hfld z (by simp)
    rw [h1] at h2
    exact Bool.noConfusion h2

theorem FieldsFunc_of_ThreeFields (f : Char → Bool) (s a b c : Str)
    (h : ThreeFields f s a b c) : FieldsFunc s f = [a, b, c] := by
  obtain ⟨d0, d1, d2, d3, rfl, h0, h1, h2, h3, n1, n2, na, nb, nc, fa, fb, fc⟩ := h
  rw [FieldsFunc_delims f d0 _ h0,
    FieldsFunc_field f a _ na fa (StartsClosed_append f d1 _ n1 h1),
    FieldsFunc_delims f d1 _ h1,
    FieldsFunc_field f b _ nb fb (StartsClosed_append f d2 _ n2 h2),
    FieldsFunc_delims f d2 _ h2,
    FieldsFunc_field f c _ nc fc (StartsClosed_of_all f d3 h3)]
  have : FieldsFunc d3 f = [] := by
    have := FieldsFunc_delims f d3 [] h3
    simpa [FieldsFunc_nil] using this
  rw [this]

theorem ThreeFields_of_FieldsFunc (f : Char → Bool) (s a b c : Str)
    (h : FieldsFunc s f = [a, b, c]) : ThreeFields f s a b c := by
  rcases FieldsFunc_cases f s with ⟨_, hnil⟩ | ⟨d0, fa, r1, hs, h0, na, ha, hc1, hF1⟩
  · rw [hnil] at h; exact absurd h (by simp)
  rw [hF1] at h
  obtain ⟨rfl, h⟩ : fa = a ∧ FieldsFunc r1 f = [b, c] := by simpa using h
  rcases FieldsFunc_cases f r1 with ⟨_, hnil⟩ | ⟨d1, fb, r2, hs1, h1, nb, hb, hc2, hF2⟩
  · rw [hnil] at h; exact absurd h (by simp)
  rw [hF2] at h
  obtain ⟨rfl, h⟩ : fb = b ∧ FieldsFunc r2 f = [c] := by simpa using h
  rcases FieldsFunc_cases f r2 with ⟨_, hnil⟩ | ⟨d2, fc, r3, hs2, h2, nc, hc, hc3, hF3⟩
  · rw [hnil] at h; exact absurd h (by simp)
  rw [hF3] at h
  obtain ⟨rfl, h⟩ : fc = c ∧ FieldsFunc r3 f = [] := by simpa using h
  rcases FieldsFunc_cases f r3 with ⟨h3, _⟩ | ⟨d3, fd, r4, _, _, _, _, _, hF4⟩
  swap
  · rw [hF4] at h; exact absurd h (by simp)
  have n1 : d1 ≠ [] := by
    rintro rfl
    rw [hs1] at hc1
    exact head_not_closed f fb r2 nb hb (by simpa using hc1)
  have n2 : d2 ≠ [] := by
    rintro rfl
    rw [hs2] at hc2
    exact head_not_closed f fc r3 nc hc (by simpa using hc2)
  exact ⟨d0, d1, d2, r3, by rw [hs, hs1, hs2], h0, h1, h2, h3, n1, n2, na, nb, nc, ha, hb, hc⟩

theorem FieldsFunc_three_iff (f : Char → Bool) (s a b c : Str) :
    FieldsFunc s f = [a, b, c] ↔ ThreeFields f s a b c :=
  ⟨ThreeFields_of_FieldsFunc f s a b c, FieldsFunc_of_ThreeFields f s a b c⟩

theorem ThreeFields_of_NickUserHost (s nick user host : Str)
    (h : NickUserHost s nick user host) : ThreeFields isBangAt s nick user host := by
  obtain ⟨rfl, n1, n2, n3, f1, f2, f3⟩ := h
  exact ⟨[], ['!'], ['@'], [], by simp, by simp, by simp [isBangAt], by simp [isBangAt],
    by simp, by simp, by simp, n1, n2, n3, f1, f2, f3⟩

theorem FieldsFunc_no_separator (f : Char → Bool) (s : Str) (h : ∀ x ∈ s, f x = false) :
    (FieldsFunc s f).length ≤ 1 := by
  have := FieldsFuncAux_field f s [] [] h
  simp only [List.append_nil, List.nil_append] at this
  unfold FieldsFunc
  rw [this]
  unfold FieldsFuncAux
  split <;> simp

theorem isBangAt_fun : (fun r : Char => r == '!' || r == '@') = isBangAt := rfl

theorem split_first_space (body : Str) (h : ' ' ∈ body) :
    ∃ pfx rest, body = pfx ++ ' ' :: rest ∧ ' ' ∉ pfx := by
  induction body with
  | nil => simp at h
  | cons c cs ih =>
    by_cases hc : c = ' '
    · exact ⟨[], cs, by simp [hc], by simp⟩
    · have hcs : ' ' ∈ cs := by
        rcases List.mem_cons.mp h with h1 | h1
        · exact absurd h1.symm hc
        · exact h1
      obtain ⟨pfx, rest, hb, hp⟩ := ih hcs
      refine ⟨c :: pfx, rest, by simp [hb], ?_⟩
      intro hmem
      rcases List.mem_cons.mp hmem with h1 | h1
      · exact hc h1.symm
      · exact hp h1

/-- On every line on which `parseMessage` returns, `Nick`, `User`, `Host` are the three
fields of the captured prefix when it has exactly three, and empty otherwise. -/
theorem parseMessage_fields (upper : Char → Char) (nick raw : Str) (m : Message)
    (h : parseMessage upper nick raw = some m) :
    (∀ a b c, FieldsFunc m.Prefix isBangAt = [a, b, c] →
        m.Nick = a ∧ m.User = b ∧ m.Host = c) ∧
    ((FieldsFunc m.Prefix isBangAt).length ≠ 3 → m.Nick = [] ∧ m.User = [] ∧ m.Host = []) := by
  cases raw with
  | nil => simp [parseMessage] at h
  | cons c cs =>
    by_cases hc : c = ':'
    · subst hc
      by_cases hsp : ' ' ∈ cs
      · obtain ⟨pfx, rest, rfl, hp⟩ := split_first_space cs hsp
        obtain ⟨p0, ps, hsplit⟩ := SplitN_head rest [' ', ':'] 2
        obtain ⟨c0, args, hcmd⟩ := Split_head p0 [' ']
        rw [parseMessage_colon upper nick pfx rest p0 c0 ps args hp hsplit hcmd,
          isBangAt_fun] at h
        by_cases h3 : (FieldsFunc pfx isBangAt).length = 3
        · rw [if_pos h3] at h
          have hm := (Option.some.inj h).symm
          subst hm
          refine ⟨?_, fun hne => absurd h3 hne⟩
          intro a b c habc
          simp only at habc
          simp [habc]
        · rw [if_neg h3] at h
          have hm := (Option.some.inj h).symm
          subst hm
          refine ⟨?_, fun _ => ⟨rfl, rfl, rfl⟩⟩
          intro a b c habc
          simp only at habc
          rw [habc] at h3
          exact absurd rfl h3
      · rw [parseMessage_colon_no_space upper nick cs hsp] at h
        exact Option.noConfusion h
    · obtain ⟨p0, ps, hsplit⟩ := SplitN_head (c :: cs) [' ', ':'] 2
      obtain ⟨c0, args, hcmd⟩ := Split_head p0 [' ']
      rw [parseMessage_no_colon upper nick c cs p0 c0 ps args hc hsplit hcmd] at h
      have hm := (Option.some.inj h).symm
      subst hm
      refine ⟨?_, fun _ => ⟨rfl, rfl, rfl⟩⟩
      intro a b c habc
      simp [FieldsFunc_nil] at habc

/-! ## The parser -/

/-- C1. `parseMessage` is not total over non-empty input: it faults exactly on the empty
line and on the lines that start with a colon and contain no space (`raw[1:prefixIndex]`
with `prefixIndex = -1`); in particular it faults on `:abc` and on `:`. -/
theorem parseMessage_fault_iff (upper : Char → Char) (nick : Str) :
    (∀ raw, parseMessage upper nick raw = none ↔
      raw = [] ∨ ∃ body, raw = ':' :: body ∧ ' ' ∉ body) ∧
    parseMessage upper nick ":abc".toList = none ∧
    parseMessage upper nick ":".toList = none := by
  refine ⟨?_, parseMessage_colon_no_space upper nick "abc".toList (by decide),
    parseMessage_colon_no_space upper nick [] (by simp)⟩
  intro raw
  constructor
  · intro h
    cases raw with
    | nil => exact Or.inl rfl
    | cons c cs =>
      right
      by_cases hc : c = ':'
      · subst hc
        by_cases hsp : ' ' ∈ cs
        · obtain ⟨pfx, rest, rfl, hp⟩ := split_first_space cs hsp
          obtain ⟨p0, ps, hsplit⟩ := SplitN_head rest [' ', ':'] 2
          obtain ⟨c0, args, hcmd⟩ := Split_head p0 [' ']
          rw [parseMessage_colon upper nick pfx rest p0 c0 ps args hp hsplit hcmd] at h
          exact Option.noConfusion h
        · exact ⟨cs, rfl, hsp⟩
      · obtain ⟨p0, ps, hsplit⟩ := SplitN_head (c :: cs) [' ', ':'] 2
        obtain ⟨c0, args, hcmd⟩ := Split_head p0 [' ']
        rw [parseMessage_no_colon upper nick c cs p0 c0 ps args hc hsplit hcmd] at h
        exact Option.noConfusion h
  · rintro (rfl | ⟨body, rfl, hb⟩)
    · simp [parseMessage]
    · exact parseMessage_colon_no_space upper nick body hb

/-- C2. A well-formed line `:nick!user@host cmd p1 p2 :trailing` parses to `Raw` the line
itself, `Prefix` `nick!user@host`, the three parts of the prefix, `Command` the uppercased
`cmd`, `Parameters` `[p1, p2]` and `Trail` the trailing text verbatim. -/
theorem parseMessage_full_line (upper : Char → Char) (self nick user host cmd p1 p2 trailing : Str)
    (hnick : nick ≠ [] ∧ ∀ x ∈ nick, x ≠ ' ' ∧ x ≠ '!' ∧ x ≠ '@')
    (huser : user ≠ [] ∧ ∀ x ∈ user, x ≠ ' ' ∧ x ≠ '!' ∧ x ≠ '@')
    (hhost : host ≠ [] ∧ ∀ x ∈ host, x ≠ ' ' ∧ x ≠ '!' ∧ x ≠ '@')
    (hcmd : cmd ≠ [] ∧ ' ' ∉ cmd) (hp1 : IsMiddle p1) (hp2 : IsMiddle p2) :
    parseMessage upper self
        (":".toList ++ nick ++ "!".toList ++ user ++ "@".toList ++ host ++ " ".toList ++ cmd
          ++ " ".toList ++ p1 ++ " ".toList ++ p2 ++ " :".toList ++ trailing) =
      some { Raw := ":".toList ++ nick ++ "!".toList ++ user ++ "@".toList ++ host ++ " ".toList
                      ++ cmd ++ " ".toList ++ p1 ++ " ".toList ++ p2 ++ " :".toList ++ trailing,
             Prefix := nick ++ "!".toList ++ user ++ "@".toList ++ host,
             Nick := nick, User := user, Host := host,
             Command := ToUpper upper cmd, Parameters := [p1, p2], Trail := trailing,
             self := self } := by
  have hraw : ":".toList ++ nick ++ "!".toList ++ user ++ "@".toList ++ host ++ " ".toList ++ cmd
      ++ " ".toList ++ p1 ++ " ".toList ++ p2 ++ " :".toList ++ trailing
      = ':' :: ((nick ++ ('!' :: (user ++ ('@' :: host)))) ++
          ' ' :: ((cmd ++ spaced [p1, p2]) ++ ([' ', ':'] ++ trailing))) := by
    simp [spaced]
  have hpre : nick ++ "!".toList ++ user ++ "@".toList ++ host
      = nick ++ ('!' :: (user ++ ('@' :: host))) := by simp
  have hsp : ' ' ∉ nick ++ ('!' :: (user ++ ('@' :: host))) := by
    intro hmem
    simp only [List.mem_append, List.mem_cons] at hmem
    rcases hmem with h | h | h | h | h
    · exact (hnick.2 _ h).1 rfl
    · exact absurd h (by decide)
    · exact (huser.2 _ h).1 rfl
    · exact absurd h (by decide)
    · exact (hhost.2 _ h).1 rfl
  have hmid : ∀ t ∈ [p1, p2], IsMiddle t := by
    intro t ht
    rcases List.mem_cons.mp ht with rfl | ht
    · exact hp1
    · rcases List.mem_cons.mp ht with rfl | ht
      · exact hp2
      · simp at ht
  have hsplit : SplitN ((cmd ++ spaced [p1, p2]) ++ ([' ', ':'] ++ trailing)) [' ', ':'] 2
      = [cmd ++ spaced [p1, p2], trailing] := by
    have := genSplit_cut [' ', ':'] (cmd ++ spaced [p1, p2]) trailing 0
      (Index_sc_trailing cmd [p1, p2] trailing hcmd.2 hmid)
    simpa [SplitN, genSplit] using this
  have hwords : Split (cmd ++ spaced [p1, p2]) [' '] = cmd :: [p1, p2] :=
    Split_space_tokens cmd [p1, p2] hcmd.2 (fun t ht => (hmid t ht).2.1)
  have hbang : ∀ (t : Str), (∀ x ∈ t, x ≠ ' ' ∧ x ≠ '!' ∧ x ≠ '@') →
      ∀ x ∈ t, isBangAt x = false := by
    intro t ht x hx
    have := ht x hx
    simp [isBangAt, this.2.1, this.2.2]
  have hthree : FieldsFunc (nick ++ ('!' :: (user ++ ('@' :: host)))) isBangAt
      = [nick, user, host] :=
    FieldsFunc_of_ThreeFields _ _ _ _ _ (ThreeFields_of_NickUserHost _ _ _ _
      ⟨rfl, hnick.1, huser.1, hhost.1, hbang _ hnick.2, hbang _ huser.2, hbang _ hhost.2⟩)
  rw [hraw, hpre, parseMessage_colon upper self _ _ _ _ _ _ hsp hsplit hwords, isBangAt_fun,
    hthree]
  simp

theorem parseMessage_full_line_witness :
    parseMessage Char.toUpper "me".toList
        (":".toList ++ "bob".toList ++ "!".toList ++ "b".toList ++ "@".toList ++ "h.org".toList
          ++ " ".toList ++ "privmsg".toList ++ " ".toList ++ "#go".toList ++ " ".toList
          ++ "x".toList ++ " :".toList ++ "hi :there".toList) =
      some { Raw := ":bob!b@h.org privmsg #go x :hi :there".toList,
             Prefix := "bob!b@h.org".toList,
             Nick := "bob".toList, User := "b".toList, Host := "h.org".toList,
             Command := "PRIVMSG".toList, Parameters := ["#go".toList, "x".toList],
             Trail := "hi :there".toList, self := "me".toList } :=
  parseMessage_full_line Char.toUpper "me".toList "bob".toList "b".toList "h.org".toList
    "privmsg".toList "#go".toList "x".toList "hi :there".toList
    (by decide) (by decide) (by decide) (by decide) (by decide) (by decide)

/-- C3, as the code has it. On every line on which `parseMessage` returns, `Nick`, `User`
and `Host` are populated exactly when the captured prefix consists of exactly three
non-empty fields separated by non-empty runs of `!` and `@` characters (runs of them may
also lead and trail), in which case they are those three fields in order; this covers the
shape `nick!user@host`. For every other prefix, in particular one without `!` and `@`
(a host-only prefix or no prefix at all), the three are empty. -/
theorem parseMessage_nick_user_host (upper : Char → Char) (nick raw : Str) (m : Message)
    (h : parseMessage upper nick raw = some m) :
    ((m.Nick ≠ [] ∨ m.User ≠ [] ∨ m.Host ≠ []) ↔
        ∃ a b c, ThreeFields isBangAt m.Prefix a b c) ∧
    (∀ a b c, ThreeFields isBangAt m.Prefix a b c → m.Nick = a ∧ m.User = b ∧ m.Host = c) ∧
    ((¬ ∃ a b c, ThreeFields isBangAt m.Prefix a b c) →
        m.Nick = [] ∧ m.User = [] ∧ m.Host = []) ∧
    (∀ n u o, NickUserHost m.Prefix n u o → m.Nick = n ∧ m.User = u ∧ m.Host = o) ∧
    ((∀ x ∈ m.Prefix, x ≠ '!' ∧ x ≠ '@') → m.Nick = [] ∧ m.User = [] ∧ m.Host = []) := by
  obtain ⟨hthree, hother⟩ := parseMessage_fields upper nick raw m h
  have key : ∀ a b c, ThreeFields isBangAt m.Prefix a b c →
      m.Nick = a ∧ m.User = b ∧ m.Host = c := fun a b c t =>
    hthree a b c (FieldsFunc_of_ThreeFields _ _ _ _ _ t)
  have none_of : (¬ ∃ a b c, ThreeFields isBangAt m.Prefix a b c) →
      m.Nick = [] ∧ m.User = [] ∧ m.Host = [] := by
    intro hno
    apply hother
    intro hlen
    match hF : FieldsFunc m.Prefix isBangAt, hlen with
    | [a, b, c], _ => exact hno ⟨a, b, c, ThreeFields_of_FieldsFunc _ _ _ _ _ hF⟩
  refine ⟨⟨?_, ?_⟩, key, none_of, ?_, ?_⟩
  · intro hpop
    by_contra hno
    obtain ⟨h1, h2, h3⟩ := none_of hno
    rcases hpop with hp | hp | hp
    · exact hp h1
    · exact hp h2
    · exact hp h3
  · rintro ⟨a, b, c, t⟩
    obtain ⟨h1, _, _⟩ := key a b c t
    obtain ⟨_, _, _, _, _, _, _, _, _, _, _, na, _⟩ := t
    exact Or.inl (by rw [h1]; exact na)
  · intro n u o hs
    exact key n u o (ThreeFields_of_NickUserHost _ _ _ _ hs)
  · intro hfree
    apply hother
    have hb : ∀ x ∈ m.Prefix, isBangAt x = false := by
      intro x hx
      have := hfree x hx
      simp [isBangAt, this.1, this.2]
    have := FieldsFunc_no_separator isBangAt m.Prefix hb
    omega

theorem parseMessage_nick_user_host_witness :
    parseMessage Char.toUpper [] ":a@b!c X".toList = some msgSwapped ∧
    ((msgSwapped.Nick ≠ [] ∨ msgSwapped.User ≠ [] ∨ msgSwapped.Host ≠ []) ↔
        ∃ a b c, ThreeFields isBangAt msgSwapped.Prefix a b c) :=
  ⟨by decide,
   (parseMessage_nick_user_host Char.toUpper [] ":a@b!c X".toList msgSwapped (by decide)).1⟩

/-- C3 as stated fails: on the line `:a@b!c X` the parser returns with `Nick`, `User`,
`Host` populated (`a`, `b`, `c`), although the prefix `a@b!c` does not have the shape
`nick!user@host`. -/
theorem parseMessage_populates_other_shape :
    parseMessage Char.toUpper [] ":a@b!c X".toList = some msgSwapped ∧
    msgSwapped.Nick = "a".toList ∧ msgSwapped.User = "b".toList ∧
    msgSwapped.Host = "c".toList ∧
    ¬ ∃ n u o, NickUserHost msgSwapped.Prefix n u o := by
  refine ⟨by decide, rfl, rfl, rfl, ?_⟩
  rintro ⟨n, u, o, hs, _, _, _, hn, _, _⟩
  have hmem : '@' ∈ n := by
    cases n with
    | nil =>
      have : msgSwapped.Prefix = '!' :: (u ++ '@' :: o) := by simpa using hs
      have h0 := congrArg List.head? this
      simp [msgSwapped] at h0
    | cons x n1 =>
      cases n1 with
      | nil =>
        have : msgSwapped.Prefix = x :: '!' :: (u ++ '@' :: o) := by simpa using hs
        have h0 := congrArg (fun l => l.tail.head?) this
        simp [msgSwapped] at h0
      | cons y n2 =>
        have : msgSwapped.Prefix = x :: y :: (n2 ++ '!' :: (u ++ '@' :: o)) := by simpa using hs
        have h0 := congrArg (fun l => l.tail.head?) this
        have hy : y = '@' := by simpa [msgSwapped] using h0.symm
        simp [hy]
  have := hn '@' hmem
  simp [isBangAt] at this

/-- C4. A line made of a command and space-separated middle parameters, without prefix
and without trailing part, parses to empty `Prefix`, `Nick`, `User`, `Host` and `Trail`,
`Command` the uppercased command and `Parameters` the arguments in order; with no
argument at all `Parameters` is empty. -/
theorem parseMessage_command_args (upper : Char → Char) (self cmd : Str) (args : List Str)
    (hcmd : IsMiddle cmd) (hargs : ∀ a ∈ args, IsMiddle a) :
    parseMessage upper self (cmd ++ spaced args) =
      some { Raw := cmd ++ spaced args, Prefix := [], Nick := [], User := [], Host := [],
             Command := ToUpper upper cmd, Parameters := args, Trail := [], self := self } := by
  obtain ⟨hne, hsp, hcol⟩ := hcmd
  obtain ⟨c, cs, rfl⟩ : ∃ c cs, cmd = c :: cs := by
    cases cmd with
    | nil => exact absurd rfl hne
    | cons c cs => exact ⟨c, cs, rfl⟩
  have hc : c ≠ ':' := fun hc => hcol (by simp [hc])
  have hsplit : SplitN ((c :: cs) ++ spaced args) [' ', ':'] 2 = [(c :: cs) ++ spaced args] :=
    genSplit_last _ _ _ (Index_sc_tokens (c :: cs) args hsp hargs)
  have hwords : Split ((c :: cs) ++ spaced args) [' '] = (c :: cs) :: args :=
    Split_space_tokens (c :: cs) args hsp (fun t ht => (hargs t ht).2.1)
  have := parseMessage_no_colon upper self c (cs ++ spaced args) _ _ _ _ hc hsplit hwords
  simpa using this

theorem parseMessage_command_args_witness :
    parseMessage Char.toUpper "me".toList "quit".toList =
      some { Raw := "quit".toList, Command := "QUIT".toList, Parameters := [],
             self := "me".toList } ∧
    parseMessage Char.toUpper "me".toList "join #a #b".toList =
      some { Raw := "join #a #b".toList, Command := "JOIN".toList,
             Parameters := ["#a".toList, "#b".toList], self := "me".toList } :=
  ⟨parseMessage_command_args Char.toUpper "me".toList "quit".toList [] (by decide) (by decide),
   parseMessage_command_args Char.toUpper "me".toList "join".toList ["#a".toList, "#b".toList]
     (by decide) (by decide)⟩

/-! ## message.go -/

/-- C6. For a `PRIVMSG` with a non-empty first parameter `IsChannelMsg` returns true
exactly when that parameter starts with `#`, `&`, `!` or `+`; for any other command it
returns false; the message parsed from `PRIVMSG alice :hi` is not a channel message. -/
theorem IsChannelMsg_spec (upper : Char → Char) (nick : Str)
    (hup : ToUpper upper CMD_PRIVMSG = CMD_PRIVMSG) :
    (∀ (m : Message) (c : Char) (cs : Str) (ps : List Str), m.Command = CMD_PRIVMSG →
        m.Parameters = (c :: cs) :: ps →
        IsChannelMsg m = some (decide (c = '#' ∨ c = '&' ∨ c = '!' ∨ c = '+'))) ∧
    (∀ m : Message, m.Command ≠ CMD_PRIVMSG → IsChannelMsg m = some false) ∧
    (∃ m, parseMessage upper nick "PRIVMSG alice :hi".toList = some m ∧
        m.Command = CMD_PRIVMSG ∧ m.Parameters = ["alice".toList] ∧
        IsChannelMsg m = some false) := by
  refine ⟨?_, ?_, ?_⟩
  · intro m c cs ps hcmd hpar
    by_cases hch : c = '#' ∨ c = '&' ∨ c = '!' ∨ c = '+'
    · simp [IsChannelMsg, hcmd, hpar, hch]
    · simp [IsChannelMsg, hcmd, hpar, hch]
  · intro m hcmd
    simp [IsChannelMsg, hcmd]
  · have hp := parseMessage_no_colon upper nick 'P' "RIVMSG alice :hi".toList
      "PRIVMSG alice".toList "PRIVMSG".toList ["hi".toList] ["alice".toList]
      (by decide) (by decide) (by decide)
    refine ⟨_, hp, hup, rfl, ?_⟩
    have hup2 : ToUpper upper "PRIVMSG".toList = CMD_PRIVMSG := hup
    simp [IsChannelMsg, hup2]

theorem IsChannelMsg_spec_witness :
    ToUpper Char.toUpper CMD_PRIVMSG = CMD_PRIVMSG ∧
    ∃ m, parseMessage Char.toUpper "me".toList "PRIVMSG alice :hi".toList = some m ∧
        m.Command = CMD_PRIVMSG ∧ m.Parameters = ["alice".toList] ∧
        IsChannelMsg m = some false :=
  ⟨by decide, (IsChannelMsg_spec Char.toUpper "me".toList (by decide)).2.2⟩

/-- C5. `PrivmsgRespondTo` returns the first parameter without error for a channel
message, the sender nick without error for a `PRIVMSG` whose non-empty first parameter
does not start with `#`, `&`, `!` or `+`, and the empty target with the error
`Command not PRIVMSG` for every other command. -/
theorem PrivmsgRespondTo_spec :
    (∀ m : Message, IsChannelMsg m = some true →
        ∃ p ps, m.Parameters = p :: ps ∧ PrivmsgRespondTo m = some (p, none)) ∧
    (∀ (m : Message) (c : Char) (cs : Str) (ps : List Str), m.Command = CMD_PRIVMSG →
        m.Parameters = (c :: cs) :: ps → c ≠ '#' → c ≠ '&' → c ≠ '!' → c ≠ '+' →
        PrivmsgRespondTo m = some (m.Nick, none)) ∧
    (∀ m : Message, m.Command ≠ CMD_PRIVMSG →
        PrivmsgRespondTo m = some ([], some "Command not PRIVMSG".toList)) := by
  refine ⟨?_, ?_, ?_⟩
  · intro m hm
    cases hpar : m.Parameters with
    | nil =>
      by_cases hcmd : m.Command = CMD_PRIVMSG
      · simp [IsChannelMsg, hcmd, hpar] at hm
      · simp [IsChannelMsg, hcmd] at hm
    | cons p ps =>
      exact ⟨p, ps, rfl, by simp [PrivmsgRespondTo, hm, hpar]⟩
  · intro m c cs ps hcmd hpar h1 h2 h3 h4
    simp [PrivmsgRespondTo, IsChannelMsg, hcmd, hpar, h1, h2, h3, h4]
  · intro m hcmd
    simp [PrivmsgRespondTo, IsChannelMsg, hcmd]

theorem PrivmsgRespondTo_spec_witness :
    PrivmsgRespondTo { Command := CMD_PRIVMSG, Parameters := ["bob".toList],
                       Nick := "alice".toList } = some ("alice".toList, none) ∧
    PrivmsgRespondTo { Command := "NOTICE".toList, Parameters := ["#go".toList],
                       Nick := "alice".toList }
      = some ([], some "Command not PRIVMSG".toList) :=
  ⟨PrivmsgRespondTo_spec.2.1 _ 'b' "ob".toList [] rfl rfl (by decide) (by decide) (by decide)
      (by decide),
   PrivmsgRespondTo_spec.2.2 _ (by decide)⟩

/-- C10. `IsChannelMsg` and `PrivmsgRespondTo` fault exactly on the messages whose
`Command` is `PRIVMSG` and whose `Parameters` are empty or start with the empty string;
`parseMessage` produces such messages from the lines `PRIVMSG` (no parameter) and
`PRIVMSG  :hi` with two spaces (one empty parameter). -/
theorem IsChannelMsg_fault_iff (upper : Char → Char) (nick : Str)
    (hup : ToUpper upper CMD_PRIVMSG = CMD_PRIVMSG) :
    (∀ m : Message, IsChannelMsg m = none ↔
        m.Command = CMD_PRIVMSG ∧ (m.Parameters = [] ∨ m.Parameters.head? = some [])) ∧
    (∀ m : Message, PrivmsgRespondTo m = none ↔
        m.Command = CMD_PRIVMSG ∧ (m.Parameters = [] ∨ m.Parameters.head? = some [])) ∧
    (∃ m, parseMessage upper nick "PRIVMSG".toList = some m ∧ m.Command = CMD_PRIVMSG ∧
        m.Parameters = [] ∧ IsChannelMsg m = none ∧ PrivmsgRespondTo m = none) ∧
    (∃ m, parseMessage upper nick "PRIVMSG  :hi".toList = some m ∧ m.Command = CMD_PRIVMSG ∧
        m.Parameters = [[]] ∧ IsChannelMsg m = none ∧ PrivmsgRespondTo m = none) := by
  have hchan : ∀ m : Message, IsChannelMsg m = none ↔
      m.Command = CMD_PRIVMSG ∧ (m.Parameters = [] ∨ m.Parameters.head? = some []) := by
    intro m
    by_cases hcmd : m.Command = CMD_PRIVMSG
    · cases hpar : m.Parameters with
      | nil => simp [IsChannelMsg, hcmd, hpar]
      | cons p ps =>
        cases p with
        | nil => simp [IsChannelMsg, hcmd, hpar]
        | cons c cs =>
          by_cases hch : c = '#' ∨ c = '&' ∨ c = '!' ∨ c = '+'
          · simp [IsChannelMsg, hcmd, hpar, hch]
          · simp [IsChannelMsg, hcmd, hpar, hch]
    · simp [IsChannelMsg, hcmd]
  have hresp : ∀ m : Message, PrivmsgRespondTo m = none ↔
      m.Command = CMD_PRIVMSG ∧ (m.Parameters = [] ∨ m.Parameters.head? = some []) := by
    intro m
    rw [← hchan m]
    cases hc : IsChannelMsg m with
    | none => simp [PrivmsgRespondTo, hc]
    | some b =>
      cases b with
      | false =>
        by_cases hcmd : m.Command = CMD_PRIVMSG
        · simp [PrivmsgRespondTo, hc, hcmd]
        · simp [PrivmsgRespondTo, hc, hcmd]
      | true =>
        cases hpar : m.Parameters with
        | nil =>
          have := (hchan m).mpr ⟨by
            by_contra hcmd
            simp [IsChannelMsg, hcmd] at hc, Or.inl hpar⟩
          rw [this] at hc
          exact Option.noConfusion hc
        | cons p ps => simp [PrivmsgRespondTo, hc, hpar]
  have hup2 : ToUpper upper "PRIVMSG".toList = CMD_PRIVMSG := hup
  refine ⟨hchan, hresp, ?_, ?_⟩
  · have hp := parseMessage_no_colon upper nick 'P' "RIVMSG".toList
      "PRIVMSG".toList "PRIVMSG".toList [] [] (by decide) (by decide) (by decide)
    exact ⟨_, hp, hup, rfl, (hchan _).mpr ⟨hup2, Or.inl rfl⟩, (hresp _).mpr ⟨hup2, Or.inl rfl⟩⟩
  · have hp := parseMessage_no_colon upper nick 'P' "RIVMSG  :hi".toList
      "PRIVMSG ".toList "PRIVMSG".toList ["hi".toList] [[]] (by decide) (by decide) (by decide)
    exact ⟨_, hp, hup, rfl, (hchan _).mpr ⟨hup2, Or.inr rfl⟩, (hresp _).mpr ⟨hup2, Or.inr rfl⟩⟩

theorem IsChannelMsg_fault_iff_witness :
    ToUpper Char.toUpper CMD_PRIVMSG = CMD_PRIVMSG ∧
    (∃ m, parseMessage Char.toUpper "me".toList "PRIVMSG".toList = some m ∧
        m.Command = CMD_PRIVMSG ∧ m.Parameters = [] ∧ IsChannelMsg m = none ∧
        PrivmsgRespondTo m = none) ∧
    (∃ m, parseMessage Char.toUpper "me".toList "PRIVMSG  :hi".toList = some m ∧
        m.Command = CMD_PRIVMSG ∧ m.Parameters = [[]] ∧ IsChannelMsg m = none ∧
        PrivmsgRespondTo m = none) :=
  ⟨by decide, (IsChannelMsg_fault_iff Char.toUpper "me".toList (by decide)).2.2⟩

/-! ## The callback registry -/

theorem HandleCommand_same (c : Client H) (cmd : Str) (h : H) :
    (HandleCommand c cmd h).callbacks cmd = some ((c.callbacks cmd).getD [] ++ [h]) := by
  unfold HandleCommand
  cases hc : c.callbacks cmd <;> simp

theorem HandleCommand_other (c : Client H) (cmd k : Str) (h : H) (hk : k ≠ cmd) :
    (HandleCommand c cmd h).callbacks k = c.callbacks k := by
  unfold HandleCommand
  cases hc : c.callbacks cmd <;> simp [hk]

theorem registerAll_callbacks (regs : List (Str × H)) (c : Client H) (k : Str) :
    (registerAll c regs).callbacks k =
      if (registeredUnder regs k).isEmpty then c.callbacks k
      else some ((c.callbacks k).getD [] ++ registeredUnder regs k) := by
  induction regs generalizing c with
  | nil => simp [registerAll, registeredUnder]
  | cons r rs ih =>
    have hstep : registerAll c (r :: rs) = registerAll (HandleCommand c r.1 r.2) rs := rfl
    rw [hstep, ih]
    by_cases hk : r.1 = k
    · subst hk
      have hreg : registeredUnder (r :: rs) r.1 = r.2 :: registeredUnder rs r.1 := by
        simp [registeredUnder]
      rw [hreg, HandleCommand_same]
      cases hrs : registeredUnder rs r.1 <;> simp
    · have hreg : registeredUnder (r :: rs) k = registeredUnder rs k := by
        simp [registeredUnder, hk]
      rw [hreg, HandleCommand_other c r.1 k r.2 (fun e => hk e.symm)]

/-- C7, the part the code carries out. `HandleCommand` appends the callback at the end
of the list stored under its command and leaves the entry of every other command as it
was; so after any sequence of `HandleCommand` registrations on a new client the map
`callbacks` has an entry for a key exactly when a callback was registered under it, and
that entry lists the callbacks registered under the key in registration order. The
selection in `startReadLoop` is not embedded: its loop `for _, cb := range funcs` stands
after the `if` statement whose init statement declares `funcs`, outside the scope of
that variable. -/
theorem HandleCommand_registry (server nick : Str) (ssl : Bool) (regs : List (Str × H))
    (k : Str) :
    (registeredUnder regs k ≠ [] →
      (registerAll (NewClient server nick ssl) regs).callbacks k
        = some (registeredUnder regs k)) ∧
    (registeredUnder regs k = [] →
      (registerAll (NewClient server nick ssl) regs).callbacks k = none) ∧
    (∀ (c : Client H) (cmd : Str) (h : H),
      (HandleCommand c cmd h).callbacks cmd = some ((c.callbacks cmd).getD [] ++ [h]) ∧
      ∀ j, j ≠ cmd → (HandleCommand c cmd h).callbacks j = c.callbacks j) := by
  refine ⟨?_, ?_, ?_⟩
  · intro h1
    rw [registerAll_callbacks]
    cases hr : registeredUnder regs k with
    | nil => exact absurd hr h1
    | cons x xs => simp [NewClient]
  · intro h1
    rw [registerAll_callbacks, h1]
    simp [NewClient]
  · intro c cmd h
    exact ⟨HandleCommand_same c cmd h, fun j hj => HandleCommand_other c cmd j h hj⟩

theorem HandleCommand_registry_witness :
    (registerAll (NewClient [] "bob".toList false) sampleRegs).callbacks "JOIN".toList
      = some [1] ∧
    (registerAll (NewClient [] "bob".toList false) sampleRegs).callbacks "*".toList
      = some [2, 3] ∧
    (registerAll (NewClient [] "bob".toList false) sampleRegs).callbacks "PART".toList
      = none :=
  ⟨(HandleCommand_registry [] "bob".toList false sampleRegs "JOIN".toList).1 (by decide),
   (HandleCommand_registry [] "bob".toList false sampleRegs "*".toList).1 (by decide),
   (HandleCommand_registry [] "bob".toList false sampleRegs "PART".toList).2.1 (by decide)⟩

/-- On a new client `registerCallbacks` stores the `PING` closure alone under `PING`,
the nick-in-use closure alone under `433`, and nothing under any other key. -/
theorem registerCallbacks_callbacks (server nick : Str) (ssl : Bool) (ping nickInUse : H)
    (k : Str) :
    (registerCallbacks (NewClient server nick ssl) ping nickInUse).callbacks k =
      if k = ERR_NICKINUSE then some [nickInUse]
      else if k = "PING".toList then some [ping] else none := by
  have hne : "PING".toList ≠ ERR_NICKINUSE := by decide
  unfold registerCallbacks
  by_cases h2 : k = ERR_NICKINUSE
  · rw [h2, HandleCommand_same, HandleCommand_other _ _ _ _ (Ne.symm hne), if_pos rfl]
    rfl
  · by_cases h1 : k = "PING".toList
    · rw [HandleCommand_other _ _ _ _ h2, h1, HandleCommand_same, if_neg hne, if_pos rfl]
      rfl
    · rw [HandleCommand_other _ _ _ _ h2, HandleCommand_other _ _ _ _ h1, if_neg h2, if_neg h1]
      rfl

/-! ## The built-in callbacks -/

theorem Sprintf_nick (n : Str) : Sprintf "NICK %s".toList [n] = "NICK ".toList ++ n := by
  simp [Sprintf]

theorem Sprintf_pong (t : Str) : Sprintf "PONG %s".toList [t] = "PONG ".toList ++ t := by
  simp [Sprintf]

theorem nickInUseCallback_step (c : Client H) (msg : Message) :
    (nickInUseCallback c msg).inCh
        = c.inCh ++ ["NICK ".toList ++ dashed c.nick 1 ++ "\r\n".toList] ∧
    (nickInUseCallback c msg).nick = dashed c.nick 1 := by
  simp only [nickInUseCallback, ChangeNick, Writeln, DebugWrite, Sprintf_nick, dashed]
  exact ⟨rfl, rfl⟩

theorem dashed_succ (n : Str) (k : Nat) : dashed (dashed n 1) k = dashed n (k + 1) := by
  simp [dashed, List.replicate_succ]

/-- C8. Running the built-in `433` callback once for each message of a list of `k`
messages, on a client whose nick is `n`, sends on `in`, in order, the `k` lines
`NICK n-`, `NICK n--`, ... each ended by CR LF, after what was sent before, and leaves
`GetNick` equal to `n` followed by `k` dashes; from the nick `bob` one run sends
`NICK bob-` and the nick becomes `bob-`. -/
theorem nickInUseCallback_repeated (c : Client H) (msgs : List Message) :
    (msgs.foldl nickInUseCallback c).inCh =
        c.inCh ++ (List.range msgs.length).map
          (fun i => "NICK ".toList ++ dashed c.nick (i + 1) ++ "\r\n".toList) ∧
    GetNick (msgs.foldl nickInUseCallback c) = dashed c.nick msgs.length ∧
    (∀ msg : Message, c.nick = "bob".toList →
      (nickInUseCallback c msg).inCh = c.inCh ++ ["NICK bob-\r\n".toList] ∧
      GetNick (nickInUseCallback c msg) = "bob-".toList) := by
  refine ⟨?_, ?_, ?_⟩
  · induction msgs generalizing c with
    | nil => simp
    | cons m ms ih =>
      obtain ⟨h1, h2⟩ := nickInUseCallback_step c m
      rw [List.foldl_cons, ih, h1, h2]
      simp only [dashed_succ, List.length_cons, List.range_succ_eq_map, List.map_cons,
        List.map_map, List.append_assoc, List.singleton_append]
      rfl
  · induction msgs generalizing c with
    | nil => simp [GetNick, dashed]
    | cons m ms ih =>
      obtain ⟨_, h2⟩ := nickInUseCallback_step c m
      rw [List.foldl_cons, ih, h2, dashed_succ]
      rfl
  · intro msg hbob
    obtain ⟨h1, h2⟩ := nickInUseCallback_step c msg
    rw [h1, GetNick, h2, hbob]
    exact ⟨rfl, rfl⟩


theorem nickInUseCallback_repeated_witness :
    ([{}, {}, {}].foldl nickInUseCallback bobClient).inCh =
        ["NICK bob-\r\n".toList, "NICK bob--\r\n".toList, "NICK bob---\r\n".toList] ∧
    GetNick ([{}, {}, {}].foldl nickInUseCallback bobClient) = "bob---".toList :=
  ⟨(nickInUseCallback_repeated bobClient [{}, {}, {}]).1,
   (nickInUseCallback_repeated bobClient [{}, {}, {}]).2.1⟩

/-- C9. The built-in `PING` callback answers with the `Trail` of the message. For a probe
`PING :t` that is the payload: one line `PONG t` ended by CR LF is sent on `in`. For a
probe `PING t` whose payload is a middle parameter the `Trail` is empty, so the line sent
is `PONG ` with no payload; on the line `PING abc` the reply is not `PONG abc`. -/
theorem pingCallback_reply (upper : Char → Char) (nick : Str) (c : Client H) :
    (∀ t : Str, ∃ m, parseMessage upper nick ("PING :".toList ++ t) = some m ∧
        m.Trail = t ∧
        (pingCallback c m).inCh = c.inCh ++ ["PONG ".toList ++ t ++ "\r\n".toList]) ∧
    (∀ t : Str, IsMiddle t → ∃ m, parseMessage upper nick ("PING ".toList ++ t) = some m ∧
        m.Parameters = [t] ∧ m.Trail = [] ∧
        (pingCallback c m).inCh = c.inCh ++ ["PONG \r\n".toList]) ∧
    (∃ m, parseMessage upper nick "PING abc".toList = some m ∧
        (pingCallback c m).inCh = c.inCh ++ ["PONG \r\n".toList] ∧
        (pingCallback c m).inCh ≠ c.inCh ++ ["PONG abc\r\n".toList]) := by
  have hmid : ∀ t : Str, IsMiddle t → ∃ m, parseMessage upper nick ("PING ".toList ++ t) = some m ∧
      m.Parameters = [t] ∧ m.Trail = [] ∧
      (pingCallback c m).inCh = c.inCh ++ ["PONG \r\n".toList] := by
    intro t ht
    have hp := parseMessage_command_args upper nick "PING".toList [t] (by decide)
      (fun a ha => by rw [List.mem_singleton.mp ha]; exact ht)
    have hline : "PING".toList ++ spaced [t] = "PING ".toList ++ t := by simp [spaced]
    rw [hline] at hp
    refine ⟨_, hp, rfl, rfl, ?_⟩
    simp only [pingCallback, Writeln, Sprintf_pong]
    rfl
  refine ⟨?_, hmid, ?_⟩
  · intro t
    have hsplit : SplitN ("PING".toList ++ ([' ', ':'] ++ t)) [' ', ':'] 2 = ["PING".toList, t] := by
      have := genSplit_cut [' ', ':'] "PING".toList t 0
        (by simpa [spaced] using Index_sc_trailing "PING".toList [] t (by decide) (by simp))
      simpa [SplitN, genSplit] using this
    have hp := parseMessage_no_colon upper nick 'P' ("ING".toList ++ ([' ', ':'] ++ t))
      "PING".toList "PING".toList [t] [] (by decide) hsplit (by decide)
    have hline : 'P' :: ("ING".toList ++ ([' ', ':'] ++ t)) = "PING :".toList ++ t := by simp
    rw [hline] at hp
    refine ⟨_, hp, rfl, ?_⟩
    simp only [pingCallback, Writeln, Sprintf_pong]
    rfl
  · obtain ⟨m, hm, _, _, hq⟩ := hmid "abc".toList (by decide)
    refine ⟨m, hm, hq, ?_⟩
    rw [hq]
    intro hcontra
    have := List.append_cancel_left hcontra
    exact absurd this (by decide)

end Irc
